import Mathlib

/-!
Verification development for the AgentInsights conversational retrieval
orchestrator.  Python strings are modelled as lists of characters, Python
dicts keyed by strings as association lists, and Python floats for
timestamps as natural-number ticks.  Exceptions of fallible operations are
modelled with `Except`/`Option`; a Python `try/except` that converts an
exception into a normal return value becomes a total Lean function wrapping
the fallible core.
-/

namespace AgentInsights

/-- Python `str` as a list of characters. -/
abbrev Str := List Char

/-- Coerce a Lean string literal to the `Str` model. -/
def strOf (s : String) : Str := s.toList

/-- Python `str.lower()`. -/
def lowerStr (s : Str) : Str := s.map Char.toLower

/-- Python `needle in hay` substring test. -/
def pyIn (needle hay : Str) : Bool := decide (needle <:+: hay)

/-- Python `len(s.split())`: number of maximal non-whitespace runs. -/
def wordCount (s : Str) : Nat :=
  ((s.splitOnP (fun c => c.isWhitespace)).filter (fun w => ¬ w.isEmpty)).length

/-- Python `l[-n:]`. -/
def takeLast (n : Nat) (l : List α) : List α := l.drop (l.length - n)

/-- The route labels produced by `StreamingInsightFlowAgent.classify_query`
(`"retrieval"` / `"direct"`). -/
inductive Route where
  | retrieval
  | direct
deriving DecidableEq, Repr

/-- One exchange stored in `conversation_memory` (the dict appended by
`generate_response` / `process_query_stream`). -/
structure Exchange where
  question : Str
  answer : Str
  queryType : Route
  timestamp : Nat
deriving DecidableEq, Repr

/-- The greeting/closing phrases checked first by `classify_query`
(`streaming_agent_graph.py` lines 203-206). -/
def greetingPhrases : List Str :=
  [strOf "hello", strOf "hi", strOf "hey", strOf "good morning",
   strOf "good afternoon", strOf "good evening", strOf "how are you",
   strOf "what\x27s up", strOf "thanks", strOf "thank you", strOf "bye",
   strOf "goodbye"]

/-- The domain-lookup vocabulary checked against the combined text
(`streaming_agent_graph.py` lines 208-213).  Note `"GST"`/`"HST"` are kept
upper-case exactly as in the source. -/
def domainKeywords : List Str :=
  [strOf "tax", strOf "deduction", strOf "business expense",
   strOf "regulation", strOf "legal", strOf "rule", strOf "requirement",
   strOf "compliance", strOf "GST", strOf "HST", strOf "freelancer",
   strOf "rate", strOf "bracket", strOf "income tax", strOf "document",
   strOf "policy", strOf "guideline", strOf "explain", strOf "what is",
   strOf "how to", strOf "define", strOf "meaning", strOf "example"]

/-- The restricted keyword set used for contextual carry-over on the
previous question (`streaming_agent_graph.py` lines 222-224). -/
def carryKeywords : List Str :=
  [strOf "tax", strOf "deduction", strOf "business", strOf "legal",
   strOf "rule"]

/-- `recent_topics` built from the last three exchanges: lowered question
followed by the first 100 characters of the lowered answer. -/
def recentTopics (exs : List Exchange) : List Str :=
  exs.flatMap (fun e => [lowerStr e.question, (lowerStr e.answer).take 100])

/-- Python `" ".join(parts)`. -/
def joinSp : List Str → Str
  | [] => []
  | [x] => x
  | x :: y :: rest => x ++ ' ' :: joinSp (y :: rest)

/-- `context` computed by `classify_query`: empty when the history is
empty, otherwise the joined recent topics of the last three exchanges. -/
def contextOf (history : List Exchange) : Str :=
  if history.isEmpty then [] else joinSp (recentTopics (takeLast 3 history))

/-- `combined_text = f"{question_lower} {context}"`. -/
def combinedText (question : Str) (history : List Exchange) : Str :=
  lowerStr question ++ ' ' :: contextOf history

/-- Does any greeting phrase occur in the lowered question? -/
def greetMatch (question : Str) : Bool :=
  greetingPhrases.any (fun g => pyIn g (lowerStr question))

/-- Does any domain keyword occur in the given text? -/
def domainMatch (text : Str) : Bool :=
  domainKeywords.any (fun k => pyIn k text)

/-- Does any carry-over keyword occur in the lowered previous question? -/
def carryMatch (prevQuestion : Str) : Bool :=
  carryKeywords.any (fun k => pyIn k (lowerStr prevQuestion))

/-- The routing decision of `StreamingInsightFlowAgent.classify_query`
(`streaming_agent_graph.py` lines 198-231): greetings first, then the
domain vocabulary over the question combined with recent context, then the
short-question carry-over on the previous question, default direct. -/
def classifyRoute (question : Str) (history : List Exchange) : Route :=
  if greetMatch question then Route.direct
  else if domainMatch (combinedText question history) then Route.retrieval
  else if wordCount question ≤ 3 ∧ ¬ history.isEmpty then
    match history.getLast? with
    | some last => if carryMatch last.question then Route.retrieval else Route.direct
    | none => Route.direct
  else Route.direct

/-- Session metadata as tracked in `session_metadata` of the streaming
agent (`created_at`, `last_active`, `message_count`). -/
structure SessionMeta where
  createdAt : Nat
  lastActive : Nat
  messageCount : Nat
deriving DecidableEq, Repr

/-- Association-list lookup modelling `d.get(key)` on a Python dict. -/
def lookupKey : List (Str × β) → Str → Option β
  | [], _ => none
  | (k, v) :: rest, c => if k = c then some v else lookupKey rest c

/-- Association-list update modelling `d[key] = value`. -/
def setKey : List (Str × β) → Str → β → List (Str × β)
  | [], c, v => [(c, v)]
  | (k, w) :: rest, c, v => if k = c then (c, v) :: rest else (k, w) :: setKey rest c v

/-- The `session_metadata` dict. -/
abbrev MetaMap := List (Str × SessionMeta)

/-- The `conversation_memory` dict. -/
abbrev MemMap := List (Str × List Exchange)

/-- Python `conversation_memory.get(cid, [])`. -/
def memGet (mem : MemMap) (cid : Str) : List Exchange := (lookupKey mem cid).getD []

/-- `StreamingInsightFlowAgent.classify_query` as a state transformer: it
initialises the session metadata entry if absent, refreshes `last_active`,
reads (but never writes) the conversation memory, and computes the route.
Returns `(route, session_metadata, conversation_memory)`. -/
def classifyQuery (now : Nat) (smeta : MetaMap) (mem : MemMap) (cid question : Str) :
    Route × MetaMap × MemMap :=
  let smeta1 := match lookupKey smeta cid with
    | none => setKey smeta cid ⟨now, now, 0⟩
    | some _ => smeta
  let smeta2 := match lookupKey smeta1 cid with
    | none => smeta1
    | some md => setKey smeta1 cid { md with lastActive := now }
  (classifyRoute question (memGet mem cid), smeta2, mem)

/-- The events yielded by `process_query_stream` (`"step"`, `"token"`,
`"complete"`, `"error"` dicts). -/
inductive Event where
  | step (node : Str) (status : Str)
  | token (content : Str)
  | complete
  | error (msg : Str)
deriving DecidableEq, Repr

/-- `StreamingInsightFlowAgent.stream_response`: the LLM stream is modelled
as the pair of the successfully produced fragments and an optional
mid-stream exception message.  The `except` clause yields the message as a
final `"Error: ..."` fragment instead of raising. -/
def streamResponse (gen : List Str × Option Str) : List Str :=
  gen.1 ++ (match gen.2 with
    | none => []
    | some msg => [strOf "Error: " ++ msg])

/-- Status string recorded by `retrieve_documents`, which catches its own
errors and degrades to an empty document list. -/
def retrieveStatus (retrOut : Except Str (List Str)) : Str :=
  match retrOut with
  | .ok _ => strOf "completed"
  | .error _ => strOf "error"

/-- The step events yielded before token streaming: classifier step, then
(for the retrieval route) retriever and analyzer steps, then the
in-progress generator step. -/
def stepEventsOf (route : Route) (retrOut : Except Str (List Str)) : List Event :=
  Event.step (strOf "QueryClassifier") (strOf "completed") ::
    ((if route = Route.retrieval then
        [Event.step (strOf "DocumentRetriever") (retrieveStatus retrOut),
         Event.step (strOf "ContextAnalyzer") (strOf "completed")]
      else []) ++ [Event.step (strOf "ResponseGenerator") (strOf "in_progress")])

/-- Python `"".join` of the streamed fragments (`full_response`). -/
def concatAll (l : List Str) : Str := l.flatten

/-- The event sequence of a `process_query_stream` run whose `try` block
runs to completion: step events, then one token event per streamed
fragment in arrival order, then the `complete` event. -/
def pqsEventsCore (route : Route) (retrOut : Except Str (List Str))
    (gen : List Str × Option Str) : List Event :=
  stepEventsOf route retrOut ++ (streamResponse gen).map Event.token ++ [Event.complete]

/-- The event sequence when the `try` block raises after `k` of its yields:
the delivered prefix followed by the terminal `error` event from the
`except` clause.  The exception can occur at any point before the final
yield, never after it. -/
def pqsEventsAborted (route : Route) (retrOut : Except Str (List Str))
    (gen : List Str × Option Str) (k : Nat) (msg : Str) : List Event :=
  (pqsEventsCore route retrOut gen).take
      (min k ((pqsEventsCore route retrOut gen).length - 1)) ++ [Event.error msg]

/-- All event sequences `process_query_stream` can deliver: either the
normal run or a run aborted by an exception raised inside the `try`. -/
def pqsRunEvents (now : Nat) (smeta : MetaMap) (mem : MemMap) (cid question : Str)
    (retrOut : Except Str (List Str)) (gen : List Str × Option Str)
    (abort : Option (Nat × Str)) : List Event :=
  let route := (classifyQuery now smeta mem cid question).1
  match abort with
  | none => pqsEventsCore route retrOut gen
  | some (k, msg) => pqsEventsAborted route retrOut gen k msg

/-- `mem[-cap:]` truncation applied after appending an exchange
(`if len(mem) > cap: mem = mem[-cap:]`). -/
def trimTo (cap : Nat) (l : List Exchange) : List Exchange :=
  if cap < l.length then takeLast cap l else l

/-- A full non-aborted `process_query_stream` run: classification (which
refreshes session metadata), the events, and the memory update that
appends the turn (answer truncated to 800 characters) and keeps only the
last 10 exchanges.  Returns `(events, conversation_memory,
session_metadata)`. -/
def processQueryStream (now : Nat) (smeta : MetaMap) (mem : MemMap) (cid question : Str)
    (retrOut : Except Str (List Str)) (gen : List Str × Option Str) :
    List Event × MemMap × MetaMap :=
  let c := classifyQuery now smeta mem cid question
  let fullResponse := concatAll (streamResponse gen)
  let turn : Exchange := ⟨question, fullResponse.take 800, c.1, now⟩
  let mem1 := setKey mem cid (trimTo 10 (memGet mem cid ++ [turn]))
  (pqsEventsCore c.1 retrOut gen, mem1, c.2.1)

/-- The per-conversation memory effect of a completed
`process_query_stream` exchange: append, then keep the last 10. -/
def appendStreamOp (l : List Exchange) (e : Exchange) : List Exchange :=
  trimTo 10 (l ++ [e])

/-- The per-conversation memory effect of a completed `generate_response`
exchange: append, then keep the last 20. -/
def appendGenOp (l : List Exchange) (e : Exchange) : List Exchange :=
  trimTo 20 (l ++ [e])

/-- Run a sequence of completed exchanges against one session's history;
`true` marks the `generate_response` path, `false` the
`process_query_stream` path. -/
def runAppends : List Exchange → List (Bool × Exchange) → List Exchange
  | l, [] => l
  | l, (viaGen, e) :: rest =>
      runAppends (if viaGen then appendGenOp l e else appendStreamOp l e) rest

/-- A document chunk handed to `MultiTenantVectorStore.add_documents`. -/
structure VDoc where
  pageContent : Str
deriving DecidableEq, Repr

/-- One stored chunk: its id, text, the `org_id`/`document_id` metadata
stamped by `add_documents`, its chunk index and its embedding vector
(components modelled as integers). -/
structure VecEntry where
  eid : Str
  content : Str
  metaOrg : Str
  metaDoc : Str
  chunkIndex : Nat
  emb : List Int
deriving DecidableEq, Repr

/-- A ChromaDB collection: chunks in insertion order. -/
abbrev Collection := List VecEntry

/-- The ChromaDB client state: collections keyed by name. -/
abbrev Store := List (Str × Collection)

/-- `MultiTenantVectorStore.get_collection_name`: the md5 hex digest of the
dash-stripped org id is modelled by the abstract parameter `md5hex`, of
which the first 8 characters are embedded in the name. -/
def getCollectionName (md5hex : Str → Str) (orgId : Str) : Str :=
  strOf "org_" ++ (md5hex orgId).take 8 ++ strOf "_docs"

/-- `get_or_create` behaviour of `get_org_collection`: create the (empty)
collection when absent. -/
def ensureColl (s : Store) (n : Str) : Store :=
  match lookupKey s n with
  | some _ => s
  | none => s ++ [(n, [])]

/-- Decimal rendering of a chunk index for chunk ids. -/
def natStr (n : Nat) : Str := (toString n).toList

/-- `embeddings.embed_documents(texts)`: fails when any single text lacks a
usable embedding. -/
def embedDocuments (embedder : Str → Option (List Int)) : List Str → Option (List (List Int))
  | [] => some []
  | t :: ts =>
      match embedder t, embedDocuments embedder ts with
      | some e, some es => some (e :: es)
      | _, _ => none

/-- The entries built by `add_documents` for one call: chunk ids
`f"{document_id}_{i}"`, metadata stamped with the org and document ids. -/
def mkEntries (org docId : Str) (docs : List VDoc) (embs : List (List Int)) : List VecEntry :=
  (docs.enum.zip embs).map fun p =>
    { eid := docId ++ '_' :: natStr p.1.1
      content := p.1.2.pageContent
      metaOrg := org
      metaDoc := docId
      chunkIndex := p.1.1
      emb := p.2 }

/-- The dict returned by `add_documents`. -/
structure AddResult where
  success : Bool
  chunksAdded : Nat
  errorMsg : Option Str
deriving DecidableEq, Repr

/-- The `try` block of `MultiTenantVectorStore.add_documents`: ensure the
org collection exists, embed every chunk (raising `EmbeddingError` when any
embedding is unusable), then add all entries in one call. -/
def addDocumentsCore (md5hex : Str → Str) (embedder : Str → Option (List Int))
    (s : Store) (org : Str) (docs : List VDoc) (docId : Str) :
    Except Str (AddResult × Store) :=
  let n := getCollectionName md5hex org
  let s1 := ensureColl s n
  match embedDocuments embedder (docs.map VDoc.pageContent) with
  | none => Except.error (strOf "EmbeddingError")
  | some embs =>
      let coll := (lookupKey s1 n).getD []
      Except.ok ({ success := true, chunksAdded := docs.length, errorMsg := none },
                 setKey s1 n (coll ++ mkEntries org docId docs embs))

/-- `MultiTenantVectorStore.add_documents`: the surrounding `except` clause
converts any error into a `success: False` result, leaving the store as
the failing `try` block left it (collection ensured, nothing added). -/
def addDocuments (md5hex : Str → Str) (embedder : Str → Option (List Int))
    (s : Store) (org : Str) (docs : List VDoc) (docId : Str) : AddResult × Store :=
  match addDocumentsCore md5hex embedder s org docs docId with
  | .ok r => r
  | .error e =>
      ({ success := false, chunksAdded := 0, errorMsg := some e },
       ensureColl s (getCollectionName md5hex org))

/-- The caller-visible outcome of `add_documents` in exception semantics:
because of the `except` clause the caller always receives a normal return
value, never a raised `EmbeddingError`. -/
def addDocumentsObs (md5hex : Str → Str) (embedder : Str → Option (List Int))
    (s : Store) (org : Str) (docs : List VDoc) (docId : Str) :
    Except Str (AddResult × Store) :=
  Except.ok (addDocuments md5hex embedder s org docs docId)

/-- Squared L2 distance between embeddings, as used by a ChromaDB
collection in its default L2 space. -/
def sqDist (a b : List Int) : Int := ((a.zipWith (fun x y => (x - y) ^ 2) b)).sum

/-- `similarity_score = 1 / (1 + distance)` from
`MultiTenantVectorStore.search`. -/
def simScore (d : Int) : ℚ := 1 / (1 + (d : ℚ))

/-- The order in which the index returns neighbours: ascending distance,
ties broken by insertion position (the annotation carries the insertion
index). -/
def lexLe (qe : List Int) (a b : Nat × VecEntry) : Prop :=
  sqDist qe a.2.emb < sqDist qe b.2.emb ∨
    (sqDist qe a.2.emb = sqDist qe b.2.emb ∧ a.1 ≤ b.1)

instance (qe : List Int) : DecidableRel (lexLe qe) := fun _ _ => by
  unfold lexLe; exact inferInstance

instance (qe : List Int) : IsTotal (Nat × VecEntry) (lexLe qe) where
  total a b := by
    unfold lexLe
    rcases lt_trichotomy (sqDist qe a.2.emb) (sqDist qe b.2.emb) with h | h | h
    · exact Or.inl (Or.inl h)
    · rcases Nat.le_total a.1 b.1 with h2 | h2
      · exact Or.inl (Or.inr ⟨h, h2⟩)
      · exact Or.inr (Or.inr ⟨h.symm, h2⟩)
    · exact Or.inr (Or.inl h)

instance (qe : List Int) : IsTrans (Nat × VecEntry) (lexLe qe) where
  trans a b c hab hbc := by
    unfold lexLe at *
    rcases hab with h1 | ⟨h1, h1i⟩ <;> rcases hbc with h2 | ⟨h2, h2i⟩
    · exact Or.inl (h1.trans h2)
    · exact Or.inl (h2 ▸ h1)
    · exact Or.inl (h1 ▸ h2)
    · exact Or.inr ⟨h1.trans h2, h1i.trans h2i⟩

/-- The strict version of the neighbour order: distinct annotated entries
are strictly ordered by distance, ties strictly by insertion position. -/
def lexStrict (qe : List Int) (a b : Nat × VecEntry) : Prop :=
  sqDist qe a.2.emb < sqDist qe b.2.emb ∨
    (sqDist qe a.2.emb = sqDist qe b.2.emb ∧ a.1 < b.1)

/-- `collection.query(...)`: the `n_results` nearest stored chunks by
ascending distance (ties by insertion order), each annotated with its
insertion position. -/
def chromaQuery (coll : Collection) (qe : List Int) (k : Nat) : List (Nat × VecEntry) :=
  (List.insertionSort (lexLe qe) coll.enum).take k

/-- A search result annotated with the insertion position of its chunk
(ghost data used only for stating the ordering contract). -/
structure SearchResultA where
  insIdx : Nat
  content : Str
  metaOrg : Str
  metaDoc : Str
  score : ℚ
  rank : Nat
deriving DecidableEq, Repr

/-- The result dict produced by `MultiTenantVectorStore.search`. -/
structure SearchResult where
  content : Str
  metaOrg : Str
  metaDoc : Str
  score : ℚ
  rank : Nat
deriving DecidableEq, Repr

/-- Forget the ghost insertion index. -/
def dropIdx (r : SearchResultA) : SearchResult :=
  ⟨r.content, r.metaOrg, r.metaDoc, r.score, r.rank⟩

/-- The result-processing loop of `search`: enumerate the returned
neighbours, score each, keep those meeting the threshold, with
`rank = i + 1` from the pre-filter enumeration. -/
def buildResults (qe : List Int) (thr : ℚ) : Nat → List (Nat × VecEntry) → List SearchResultA
  | _, [] => []
  | i, p :: rest =>
      let s := simScore (sqDist qe p.2.emb)
      (if thr ≤ s then
        [⟨p.1, p.2.content, p.2.metaOrg, p.2.metaDoc, s, i + 1⟩]
       else []) ++ buildResults qe thr (i + 1) rest

/-- The `try` block of `MultiTenantVectorStore.search`: embed the query
(possibly failing), query the index (`fault` models an index failure), and
process the results. -/
def searchCore (md5hex : Str → Str) (embedQ : Str → Option (List Int)) (fault : Bool)
    (s : Store) (org q : Str) (k : Nat) (thr : ℚ) : Except Str (List SearchResultA) :=
  let coll := (lookupKey s (getCollectionName md5hex org)).getD []
  match embedQ q with
  | none => Except.error (strOf "EmbeddingError")
  | some qe =>
      if fault then Except.error (strOf "IndexError")
      else Except.ok (buildResults qe thr 0 (chromaQuery coll qe k))

/-- `search` with the ghost insertion indices: the `except` clause converts
any internal failure into the empty result list. -/
def searchAnnotated (md5hex : Str → Str) (embedQ : Str → Option (List Int)) (fault : Bool)
    (s : Store) (org q : Str) (k : Nat) (thr : ℚ) : List SearchResultA :=
  match searchCore md5hex embedQ fault s org q k thr with
  | .ok r => r
  | .error _ => []

/-- `MultiTenantVectorStore.search` as seen by the caller. -/
def search (md5hex : Str → Str) (embedQ : Str → Option (List Int)) (fault : Bool)
    (s : Store) (org q : Str) (k : Nat) (thr : ℚ) : List SearchResult :=
  (searchAnnotated md5hex embedQ fault s org q k thr).map dropIdx

/-- The store side effect of `search`: `get_org_collection` creates the
org's collection when absent; nothing else is touched. -/
def searchStoreEffect (md5hex : Str → Str) (s : Store) (org : Str) : Store :=
  ensureColl s (getCollectionName md5hex org)

/-- The dict returned by `MultiTenantVectorStore.delete_document`. -/
structure DeleteResult where
  success : Bool
  chunksDeleted : Nat
deriving DecidableEq, Repr

/-- `MultiTenantVectorStore.delete_document`: select the org collection's
chunks matching the document id; when none match report
`chunks_deleted = 0` without an error, otherwise delete exactly those. -/
def deleteDocument (md5hex : Str → Str) (s : Store) (org docId : Str) :
    DeleteResult × Store :=
  let n := getCollectionName md5hex org
  let s1 := ensureColl s n
  let coll := (lookupKey s1 n).getD []
  let matched := coll.filter (fun e => decide (e.metaDoc = docId))
  if matched.isEmpty then (⟨true, 0⟩, s1)
  else (⟨true, matched.length⟩,
        setKey s1 n (coll.filter (fun e => decide (¬ e.metaDoc = docId))))

/-- Write and delete operations against the tenant index. -/
inductive VOp where
  | add (org : Str) (docs : List VDoc) (docId : Str)
  | del (org : Str) (docId : Str)
deriving Repr

/-- The organisation issuing an operation. -/
def opOrg : VOp → Str
  | .add org _ _ => org
  | .del org _ => org

/-- The organisations issuing the operations of a run. -/
def opsOrgs (ops : List VOp) : List Str := ops.map opOrg

/-- Apply one operation to the store. -/
def applyOp (md5hex : Str → Str) (embedder : Str → Option (List Int))
    (s : Store) : VOp → Store
  | .add org docs docId => (addDocuments md5hex embedder s org docs docId).2
  | .del org docId => (deleteDocument md5hex s org docId).2

/-- Run a sequence of operations against the store. -/
def runOps (md5hex : Str → Str) (embedder : Str → Option (List Int)) :
    Store → List VOp → Store
  | s, [] => s
  | s, o :: rest => runOps md5hex embedder (applyOp md5hex embedder s o) rest

/-- Tenant bookkeeping invariant: every stored chunk lives in the
collection named after its own stamped organisation, and that organisation
issued one of the operations. -/
def StoreInv (md5hex : Str → Str) (orgs : List Str) (s : Store) : Prop :=
  ∀ p ∈ s, ∀ e ∈ p.2, e.metaOrg ∈ orgs ∧ getCollectionName md5hex e.metaOrg = p.1

/-- The claim restated: a single capacity `K` bounds the history after any
sequence of appends, with exactly the `K` most recent retained. -/
def claimC2 (K : Nat) : Prop :=
  ∀ ops : List (Bool × Exchange),
    (runAppends [] ops).length ≤ K
    ∧ runAppends [] ops = takeLast K (ops.map Prod.snd)

/-- A throwaway exchange distinguished by its timestamp. -/
def exhibitEx (i : Nat) : Exchange := ⟨[], [], Route.direct, i⟩


/-! Association-list lemmas. -/

theorem lookupKey_setKey_self (m : List (Str × β)) (c : Str) (v : β) :
    lookupKey (setKey m c v) c = some v := by
  induction m with
  | nil => simp [setKey, lookupKey]
  | cons p rest ih =>
      obtain ⟨k, w⟩ := p
      by_cases h : k = c
      · simp [setKey, lookupKey, h]
      · simp [setKey, lookupKey, h, ih]

theorem lookupKey_setKey_ne (m : List (Str × β)) (c c' : Str) (v : β) (h : c' ≠ c) :
    lookupKey (setKey m c v) c' = lookupKey m c' := by
  have h1 : ¬ (c = c') := fun hh => h hh.symm
  induction m with
  | nil => simp [setKey, lookupKey, h1]
  | cons p rest ih =>
      obtain ⟨k, w⟩ := p
      by_cases hk : k = c
      · have h2 : ¬ (k = c') := hk ▸ h1
        simp [setKey, lookupKey, hk, h1, h2]
      · by_cases hk2 : k = c'
        · simp [setKey, lookupKey, hk, hk2, h]
        · simp [setKey, lookupKey, hk, hk2, ih]

theorem lookupKey_append (m m2 : List (Str × β)) (c : Str) :
    lookupKey (m ++ m2) c
      = match lookupKey m c with
        | some v => some v
        | none => lookupKey m2 c := by
  induction m with
  | nil => simp [lookupKey]
  | cons p rest ih =>
      obtain ⟨k, w⟩ := p
      by_cases hk : k = c <;> simp [lookupKey, hk, ih]

theorem lookupKey_ensureColl_self (s : Store) (n : Str) :
    lookupKey (ensureColl s n) n = some ((lookupKey s n).getD []) := by
  unfold ensureColl
  cases h : lookupKey s n with
  | some v => simp [h]
  | none => rw [lookupKey_append]; simp [h, lookupKey]

theorem lookupKey_ensureColl_ne (s : Store) (n n' : Str) (h : n' ≠ n) :
    lookupKey (ensureColl s n) n' = lookupKey s n' := by
  have h1 : ¬ (n = n') := fun hh => h hh.symm
  unfold ensureColl
  cases h2 : lookupKey s n with
  | some v => rfl
  | none =>
      rw [lookupKey_append]
      cases h3 : lookupKey s n' with
      | some v => rfl
      | none => simp [lookupKey, h1]

theorem lookupKey_mem {m : List (Str × β)} {c : Str} {v : β}
    (h : lookupKey m c = some v) : (c, v) ∈ m := by
  induction m with
  | nil => simp [lookupKey] at h
  | cons p rest ih =>
      obtain ⟨k, w⟩ := p
      by_cases hk : k = c
      · subst hk
        simp [lookupKey] at h
        subst h; exact List.mem_cons_self _ _
      · simp [lookupKey, hk] at h
        exact List.mem_cons_of_mem _ (ih h)

theorem mem_setKey {m : List (Str × β)} {c : Str} {v : β} {p : Str × β}
    (hp : p ∈ setKey m c v) : p = (c, v) ∨ p ∈ m := by
  induction m with
  | nil => simpa [setKey] using hp
  | cons q rest ih =>
      obtain ⟨k, w⟩ := q
      by_cases hk : k = c
      · simp [setKey, hk] at hp
        rcases hp with rfl | hp
        · exact Or.inl rfl
        · exact Or.inr (List.mem_cons_of_mem _ hp)
      · simp [setKey, hk] at hp
        rcases hp with rfl | hp
        · exact Or.inr (List.mem_cons_self _ _)
        · rcases ih hp with h | h
          · exact Or.inl h
          · exact Or.inr (List.mem_cons_of_mem _ h)

theorem mem_ensureColl {s : Store} {n : Str} {p : Str × Collection}
    (hp : p ∈ ensureColl s n) : p ∈ s ∨ p = (n, []) := by
  unfold ensureColl at hp
  cases h : lookupKey s n with
  | some v => rw [h] at hp; exact Or.inl hp
  | none =>
      rw [h] at hp
      rcases List.mem_append.1 hp with h2 | h2
      · exact Or.inl h2
      · simp at h2; exact Or.inr h2

/-- C8 helper: searching any empty collection yields no results. -/
theorem search_eq_nil_of_coll_nil (md5hex : Str → Str) (embedQ : Str → Option (List Int))
    (fault : Bool) (s : Store) (org q : Str) (k : Nat) (thr : ℚ)
    (h : (lookupKey s (getCollectionName md5hex org)).getD [] = ([] : Collection)) :
    search md5hex embedQ fault s org q k thr = [] := by
  unfold search searchAnnotated searchCore
  rw [h]
  cases embedQ q with
  | none => rfl
  | some qe => cases fault <;> simp [chromaQuery, buildResults, List.enum]

/-- C8: deleting a selector that matches no stored chunk succeeds with
`deleted_count = 0` (no error), and searching an empty or never-written
namespace returns the empty list rather than an error. -/
theorem c8_missing_delete_and_empty_search (md5hex : Str → Str)
    (embedQ : Str → Option (List Int)) (fault : Bool) (s : Store)
    (org docId q : Str) (k : Nat) (thr : ℚ) :
    ((∀ e ∈ (lookupKey s (getCollectionName md5hex org)).getD ([] : Collection),
        e.metaDoc ≠ docId) →
      (deleteDocument md5hex s org docId).1 = ⟨true, 0⟩)
    ∧ ((lookupKey s (getCollectionName md5hex org)).getD ([] : Collection) = [] →
      search md5hex embedQ fault s org q k thr = []) := by
  constructor
  · intro h
    have hfil : ((lookupKey s (getCollectionName md5hex org)).getD
        ([] : Collection)).filter (fun e => decide (e.metaDoc = docId)) = [] := by
      rw [List.filter_eq_nil_iff]
      intro e he
      simpa using h e he
    simp [deleteDocument, lookupKey_ensureColl_self, hfil]
  · exact search_eq_nil_of_coll_nil md5hex embedQ fault s org q k thr

/-- C8 witness at the empty store. -/
theorem c8_missing_delete_and_empty_search_witness :
    (deleteDocument (fun x => x) ([] : Store) (strOf "o") (strOf "d")).1
        = ⟨true, 0⟩
    ∧ search (fun x => x) (fun _ => some [1]) false ([] : Store) (strOf "o")
        (strOf "q") 5 0 = [] :=
  ⟨(c8_missing_delete_and_empty_search (fun x => x) (fun _ => some [1]) false []
      (strOf "o") (strOf "d") (strOf "q") 5 0).1 (by decide),
   (c8_missing_delete_and_empty_search (fun x => x) (fun _ => some [1]) false []
      (strOf "o") (strOf "d") (strOf "q") 5 0).2 (by decide)⟩

/-- C10: `search` is total for the caller — an embedding failure or an
index failure is caught and yields `[]`, exactly the value returned for an
empty namespace, so the return value cannot distinguish the two. -/
theorem c10_search_never_raises (md5hex : Str → Str) (embedQ : Str → Option (List Int))
    (fault : Bool) (s : Store) (org q : Str) (k : Nat) (thr : ℚ) :
    (embedQ q = none → search md5hex embedQ fault s org q k thr = [])
    ∧ (fault = true → search md5hex embedQ fault s org q k thr = [])
    ∧ (∀ (embedQ2 : Str → Option (List Int)) (fault2 : Bool),
        search md5hex embedQ2 fault2 ([] : Store) org q k thr = []) := by
  refine ⟨?_, ?_, ?_⟩
  · intro h; simp [search, searchAnnotated, searchCore, h]
  · intro h; subst h; simp only [search, searchAnnotated, searchCore]
    cases embedQ q <;> simp
  · intro embedQ2 fault2
    exact search_eq_nil_of_coll_nil md5hex embedQ2 fault2 [] org q k thr rfl

/-- C10 witness: a failing embedder and a faulted index both yield `[]`. -/
theorem c10_search_never_raises_witness :
    search (fun x => x) (fun _ => none) true ([(strOf "org_o_docs",
        [⟨strOf "c0", strOf "hello", strOf "o", strOf "d", 0, [1]⟩])] : Store)
      (strOf "o") (strOf "q") 5 0 = [] :=
  (c10_search_never_raises (fun x => x) (fun _ => none) true
      [(strOf "org_o_docs", [⟨strOf "c0", strOf "hello", strOf "o", strOf "d", 0, [1]⟩])]
      (strOf "o") (strOf "q") 5 0).1 (by decide)

/-- C6 counterexample: with a chunk lacking a usable embedding,
`add_documents` does not raise an `EmbeddingError` to the caller — the
caller receives a normal `success: False` return value (the claim's
propagation of the error is false). -/
theorem c6_counterexample :
    embedDocuments (fun _ => none) (([⟨strOf "x"⟩] : List VDoc).map VDoc.pageContent) = none
    ∧ addDocumentsObs (fun x => x) (fun _ => none) ([] : Store) (strOf "o")
        [⟨strOf "x"⟩] (strOf "d")
      = Except.ok ({ success := false, chunksAdded := 0,
                     errorMsg := some (strOf "EmbeddingError") },
                   [(getCollectionName (fun x => x) (strOf "o"), [])])
    ∧ ∀ e, addDocumentsObs (fun x => x) (fun _ => none) ([] : Store) (strOf "o")
        [⟨strOf "x"⟩] (strOf "d") ≠ Except.error e := by
  refine ⟨by decide, rfl, ?_⟩
  intro e h
  simp [addDocumentsObs] at h

/-- C6 amended: `add_documents` is atomic per call — on an embedding
failure nothing is written (only the empty collection is ensured) and the
caller receives a `success: False` result with `chunks_added = 0`; when
every chunk embeds, all chunks of the call are appended to the org's
collection and no other collection is touched. -/
theorem c6_add_atomic (md5hex : Str → Str) (embedder : Str → Option (List Int))
    (s : Store) (org : Str) (docs : List VDoc) (docId : Str) :
    (embedDocuments embedder (docs.map VDoc.pageContent) = none →
      (addDocuments md5hex embedder s org docs docId).1
          = { success := false, chunksAdded := 0, errorMsg := some (strOf "EmbeddingError") }
      ∧ (addDocuments md5hex embedder s org docs docId).2
          = ensureColl s (getCollectionName md5hex org))
    ∧ (∀ embs, embedDocuments embedder (docs.map VDoc.pageContent) = some embs →
      (addDocuments md5hex embedder s org docs docId).1
          = { success := true, chunksAdded := docs.length, errorMsg := none }
      ∧ lookupKey (addDocuments md5hex embedder s org docs docId).2
          (getCollectionName md5hex org)
        = some ((lookupKey s (getCollectionName md5hex org)).getD []
            ++ mkEntries org docId docs embs)
      ∧ ∀ n, n ≠ getCollectionName md5hex org →
          lookupKey (addDocuments md5hex embedder s org docs docId).2 n = lookupKey s n) := by
  constructor
  · intro h
    unfold addDocuments addDocumentsCore
    rw [h]
    exact ⟨rfl, rfl⟩
  · intro embs h
    unfold addDocuments addDocumentsCore
    rw [h]
    refine ⟨rfl, ?_, ?_⟩
    · simp only
      rw [lookupKey_setKey_self, lookupKey_ensureColl_self]
      simp
    · intro n hn
      simp only
      rw [lookupKey_setKey_ne _ _ _ _ hn, lookupKey_ensureColl_ne _ _ _ hn]

/-- C6 witness: one failing and one succeeding concrete call. -/
theorem c6_add_atomic_witness :
    (addDocuments (fun x => x) (fun _ => none) ([] : Store) (strOf "o")
        [⟨strOf "x"⟩] (strOf "d")).1
      = { success := false, chunksAdded := 0, errorMsg := some (strOf "EmbeddingError") }
    ∧ (addDocuments (fun x => x) (fun _ => some [1]) ([] : Store) (strOf "o")
        [⟨strOf "x"⟩] (strOf "d")).1
      = { success := true, chunksAdded := 1, errorMsg := none } :=
  ⟨((c6_add_atomic (fun x => x) (fun _ => none) [] (strOf "o") [⟨strOf "x"⟩]
      (strOf "d")).1 (by decide)).1,
   ((c6_add_atomic (fun x => x) (fun _ => some [1]) [] (strOf "o") [⟨strOf "x"⟩]
      (strOf "d")).2 [[1]] (by decide)).1⟩

/-! Bounded conversation memory (C2). -/

theorem trimTo_length_le (cap : Nat) (l : List Exchange) : (trimTo cap l).length ≤ cap := by
  unfold trimTo takeLast
  split
  · rw [List.length_drop]; omega
  · omega

theorem trimTo_suffix (cap : Nat) (l : List Exchange) : trimTo cap l <:+ l := by
  unfold trimTo takeLast
  split
  · exact List.drop_suffix _ _
  · exact List.suffix_refl l

theorem runAppends_length_le :
    ∀ (ops : List (Bool × Exchange)) (acc : List Exchange),
      acc.length ≤ 20 → (runAppends acc ops).length ≤ 20 := by
  intro ops
  induction ops with
  | nil => intro acc h; exact h
  | cons op rest ih =>
      intro acc h
      obtain ⟨b, e⟩ := op
      refine ih _ ?_
      cases b
      · exact le_trans (trimTo_length_le 10 _) (by omega)
      · exact trimTo_length_le 20 _

theorem runAppends_stream_length_le :
    ∀ (ops : List (Bool × Exchange)) (acc : List Exchange),
      (∀ p ∈ ops, p.1 = false) → acc.length ≤ 10 → (runAppends acc ops).length ≤ 10 := by
  intro ops
  induction ops with
  | nil => intro acc _ h; exact h
  | cons op rest ih =>
      intro acc hops h
      obtain ⟨b, e⟩ := op
      have hb : b = false := hops (b, e) (List.mem_cons_self _ _)
      subst hb
      exact ih _ (fun p hp => hops p (List.mem_cons_of_mem _ hp)) (trimTo_length_le 10 _)

theorem runAppends_suffix :
    ∀ (ops : List (Bool × Exchange)) (acc seed : List Exchange),
      acc <:+ seed → runAppends acc ops <:+ seed ++ ops.map Prod.snd := by
  intro ops
  induction ops with
  | nil => intro acc seed h; simpa using h
  | cons op rest ih =>
      intro acc seed h
      obtain ⟨b, e⟩ := op
      have h1 : acc ++ [e] <:+ seed ++ [e] := by
        obtain ⟨t, ht⟩ := h
        exact ⟨t, by rw [← List.append_assoc, ht]⟩
      have hstep : (if b then appendGenOp acc e else appendStreamOp acc e) <:+ seed ++ [e] := by
        cases b
        · show appendStreamOp acc e <:+ seed ++ [e]
          exact (trimTo_suffix _ _).trans h1
        · show appendGenOp acc e <:+ seed ++ [e]
          exact (trimTo_suffix _ _).trans h1
      have := ih _ _ hstep
      simpa [List.append_assoc] using this

/-- C2 counterexample: no single capacity `K` satisfies the claim — eleven
`generate_response` appends leave 11 turns (forcing `K ≥ 11`), after which
one `process_query_stream` append trims the history to its own limit of
10, fewer than the `min (12, K) ≥ 11` most recent turns the claim then
requires. -/
theorem c2_counterexample : ¬ ∃ K : Nat, claimC2 K := by
  rintro ⟨K, hK⟩
  have h1 := (hK ((List.range 11).map (fun i => (true, exhibitEx i)))).1
  have hlen1 :
      (runAppends [] ((List.range 11).map (fun i => (true, exhibitEx i)))).length = 11 := by
    decide
  rw [hlen1] at h1
  have h2 := (hK ((List.range 11).map (fun i => (true, exhibitEx i))
      ++ [(false, exhibitEx 11)])).2
  have hlen2 :
      (runAppends [] ((List.range 11).map (fun i => (true, exhibitEx i))
        ++ [(false, exhibitEx 11)])).length = 10 := by
    decide
  have hlenm :
      (((List.range 11).map (fun i => (true, exhibitEx i))
        ++ [(false, exhibitEx 11)]).map Prod.snd).length = 12 := by
    decide
  have hlen := congrArg List.length h2
  rw [hlen2, takeLast, List.length_drop, hlenm] at hlen
  omega

/-- C2 amended: each append path enforces FIFO truncation with its own
capacity — 10 for the streaming path, 20 for the non-streaming path — so
after any mixed sequence of completed exchanges the history holds at most
20 turns and is always a suffix (the most recent turns, in arrival order)
of the full append sequence; a streaming-only history never exceeds 10. -/
theorem c2_bounded_memory (ops : List (Bool × Exchange)) :
    (runAppends [] ops).length ≤ 20
    ∧ runAppends [] ops <:+ ops.map Prod.snd
    ∧ ((∀ p ∈ ops, p.1 = false) → (runAppends [] ops).length ≤ 10) := by
  refine ⟨runAppends_length_le ops [] (by simp), ?_, ?_⟩
  · simpa using runAppends_suffix ops [] [] (List.suffix_refl [])
  · intro h
    exact runAppends_stream_length_le ops [] h (by simp)

/-- C2 witness: a streaming-only run stays within 10 turns. -/
theorem c2_bounded_memory_witness :
    (runAppends [] [(false, exhibitEx 0), (false, exhibitEx 1)]).length ≤ 10 :=
  (c2_bounded_memory [(false, exhibitEx 0), (false, exhibitEx 1)]).2.2 (by decide)

/-! Classification frame conditions (C5). -/

/-- C5 counterexample: `classify_query` does mutate session state — at a
fresh conversation id it creates the session-metadata entry and stamps
`last_active`, so the metadata map is no longer what it was. -/
theorem c5_counterexample :
    (classifyQuery 7 [] [] (strOf "c") (strOf "hi")).2.1
      = [(strOf "c", (⟨7, 7, 0⟩ : SessionMeta))]
    ∧ (classifyQuery 7 [] [] (strOf "c") (strOf "hi")).2.1 ≠ ([] : MetaMap) := by
  constructor
  · decide
  · decide

/-- C5 amended: the route computed by `classify_query` is a deterministic
pure function of the question and the session's history — independent of
the clock and of the session metadata — and the conversation memory is
left unchanged; however `classify_query` does create/refresh the session's
metadata entry, setting `last_active` to the current time. -/
theorem c5_classify_route_deterministic (now now2 : Nat) (sm sm2 : MetaMap)
    (mem mem2 : MemMap) (cid cid2 q : Str)
    (h : memGet mem cid = memGet mem2 cid2) :
    (classifyQuery now sm mem cid q).1 = (classifyQuery now2 sm2 mem2 cid2 q).1
    ∧ (classifyQuery now sm mem cid q).2.2 = mem
    ∧ ∃ md, lookupKey (classifyQuery now sm mem cid q).2.1 cid = some md
        ∧ md.lastActive = now := by
  refine ⟨by simp [classifyQuery, h], rfl, ?_⟩
  cases h1 : lookupKey sm cid with
  | none =>
      refine ⟨{ createdAt := now, lastActive := now, messageCount := 0 }, ?_, rfl⟩
      simp [classifyQuery, h1, lookupKey_setKey_self]
  | some md =>
      refine ⟨{ md with lastActive := now }, ?_, rfl⟩
      simp [classifyQuery, h1, lookupKey_setKey_self]

/-- C5 witness: same question, different clocks/ids/metadata, same route. -/
theorem c5_classify_route_deterministic_witness :
    (classifyQuery 1 [] [] (strOf "a") (strOf "q")).1
      = (classifyQuery 2 [] [] (strOf "b") (strOf "q")).1 :=
  (c5_classify_route_deterministic 1 2 [] [] [] [] (strOf "a") (strOf "b") (strOf "q")
    (by decide)).1

/-! Streaming pipeline (C1, C9). -/

theorem memGet_setKey_self (mem : MemMap) (cid : Str) (v : List Exchange) :
    memGet (setKey mem cid v) cid = v := by
  simp [memGet, lookupKey_setKey_self]

theorem concatAll_append (l1 l2 : List Str) :
    concatAll (l1 ++ l2) = concatAll l1 ++ concatAll l2 := by
  simp [concatAll]

/-- C1 counterexample: a run whose generation stream fails immediately
(`boom`) still ends in a `complete` event and still appends a turn to the
previously empty conversation memory — the claimed `ErrorEvent` terminal
and untouched memory are both false on the code. -/
theorem c1_counterexample :
    (processQueryStream 0 [] [] (strOf "c") (strOf "hello") (Except.ok [])
        ([], some (strOf "boom"))).1.getLast? = some Event.complete
    ∧ (processQueryStream 0 [] [] (strOf "c") (strOf "hello") (Except.ok [])
        ([], some (strOf "boom"))).2.1 ≠ ([] : MemMap) := by
  constructor
  · decide
  · decide

/-- C1 amended: when the generation call fails mid-stream,
`stream_response` swallows the exception and yields `"Error: <msg>"` as a
final token; `process_query_stream` therefore still persists a turn whose
answer is the streamed prefix followed by the error text (truncated to 800
characters) and terminates with a `complete` event, not an error event. -/
theorem c1_midstream_failure_persists_turn (now : Nat) (smeta : MetaMap) (mem : MemMap)
    (cid question : Str) (retrOut : Except Str (List Str)) (toks : List Str) (msg : Str) :
    (processQueryStream now smeta mem cid question retrOut (toks, some msg)).1.getLast?
        = some Event.complete
    ∧ Event.token (strOf "Error: " ++ msg)
        ∈ (processQueryStream now smeta mem cid question retrOut (toks, some msg)).1
    ∧ memGet (processQueryStream now smeta mem cid question retrOut (toks, some msg)).2.1 cid
        = trimTo 10 (memGet mem cid ++
            [⟨question, (concatAll toks ++ (strOf "Error: " ++ msg)).take 800,
              classifyRoute question (memGet mem cid), now⟩]) := by
  refine ⟨?_, ?_, ?_⟩
  · show (stepEventsOf _ _ ++ _ ++ [Event.complete]).getLast? = some Event.complete
    exact List.getLast?_concat _
  · show Event.token _ ∈ stepEventsOf _ _ ++
      (streamResponse (toks, some msg)).map Event.token ++ [Event.complete]
    simp [streamResponse]
  · show memGet (setKey mem cid _) cid = _
    rw [memGet_setKey_self]
    simp [streamResponse, concatAll_append, concatAll, classifyQuery]

/-- Every pre-token event of a run is a step event. -/
theorem stepEventsOf_steps (route : Route) (retrOut : Except Str (List Str)) :
    ∀ e ∈ stepEventsOf route retrOut, ∃ nd st, e = Event.step nd st := by
  intro e he
  by_cases hr : route = Route.retrieval
  · simp [stepEventsOf, hr] at he
    rcases he with rfl | rfl | rfl | rfl <;> exact ⟨_, _, rfl⟩
  · simp [stepEventsOf, hr] at he
    rcases he with rfl | rfl <;> exact ⟨_, _, rfl⟩

theorem take_append_concat (A B : List α) (c : α) (m : Nat)
    (hm : m ≤ A.length + B.length) :
    (A ++ B ++ [c]).take m = A.take m ++ B.take (m - A.length) := by
  rw [List.take_append_eq_append_take]
  have h0 : m - (A ++ B).length = 0 := by
    rw [List.length_append]; omega
  rw [h0, List.take_append_eq_append_take]
  simp

/-- The event sequence of an aborted run is the truncated step events, a
truncated token stream, and the terminal error event. -/
theorem pqsEventsAborted_shape (route : Route) (retrOut : Except Str (List Str))
    (gen : List Str × Option Str) (k : Nat) (msg : Str) :
    pqsEventsAborted route retrOut gen k msg
      = (stepEventsOf route retrOut).take
          (min k ((pqsEventsCore route retrOut gen).length - 1))
        ++ ((streamResponse gen).take
          (min k ((pqsEventsCore route retrOut gen).length - 1)
            - (stepEventsOf route retrOut).length)).map Event.token
        ++ [Event.error msg] := by
  have hlen : (pqsEventsCore route retrOut gen).length
      = (stepEventsOf route retrOut).length
        + ((streamResponse gen).map Event.token).length + 1 := by
    simp [pqsEventsCore]; omega
  unfold pqsEventsAborted
  generalize hM : min k ((pqsEventsCore route retrOut gen).length - 1) = M
  have hm : M ≤ (stepEventsOf route retrOut).length
      + ((streamResponse gen).map Event.token).length := by
    omega
  show (pqsEventsCore route retrOut gen).take M ++ [Event.error msg] = _
  rw [pqsEventsCore, take_append_concat _ _ _ _ hm, List.map_take]

/-- C9: every deliverable event sequence of `process_query_stream` splits
into step events, then token events carrying a prefix of the generation
stream in arrival order, then exactly one terminal event (`complete` or
`error`) as the final element; a non-aborted run delivers every token and
terminates with `complete`. -/
theorem c9_event_ordering (now : Nat) (smeta : MetaMap) (mem : MemMap) (cid question : Str)
    (retrOut : Except Str (List Str)) (gen : List Str × Option Str)
    (abort : Option (Nat × Str)) :
    (∃ ss ts t,
      pqsRunEvents now smeta mem cid question retrOut gen abort
          = ss ++ ts.map Event.token ++ [t]
      ∧ (∀ e ∈ ss, ∃ nd st, e = Event.step nd st)
      ∧ (∃ n, ts = (streamResponse gen).take n)
      ∧ (t = Event.complete ∨ ∃ m, t = Event.error m))
    ∧ pqsRunEvents now smeta mem cid question retrOut gen none
        = stepEventsOf (classifyRoute question (memGet mem cid)) retrOut
            ++ (streamResponse gen).map Event.token ++ [Event.complete] := by
  constructor
  · cases abort with
    | none =>
        exact ⟨stepEventsOf ((classifyQuery now smeta mem cid question).1) retrOut,
          streamResponse gen, Event.complete, rfl, stepEventsOf_steps _ _,
          ⟨(streamResponse gen).length, (List.take_length _).symm⟩, Or.inl rfl⟩
    | some km =>
        obtain ⟨k, msg⟩ := km
        refine ⟨_, _, Event.error msg, pqsEventsAborted_shape _ retrOut gen k msg, ?_,
          ⟨_, rfl⟩, Or.inr ⟨msg, rfl⟩⟩
        intro e he
        exact stepEventsOf_steps _ _ e (List.mem_of_mem_take he)
  · rfl

/-! Contextual carry-over (C7). -/

theorem getLast?_drop_eq {l : List α} : ∀ {m : Nat}, m < l.length →
    (l.drop m).getLast? = l.getLast? := by
  induction l with
  | nil => intro m h; simp at h
  | cons x xs ih =>
      intro m h
      cases m with
      | zero => rfl
      | succ m =>
          have hm : m < xs.length := by simpa using h
          rw [List.drop_succ_cons, ih hm]
          cases xs with
          | nil => simp at hm
          | cons y ys => rw [List.getLast?_cons_cons]

theorem mem_of_getLast?_eq {l : List α} {a : α} (h : l.getLast? = some a) : a ∈ l := by
  induction l with
  | nil => simp at h
  | cons x xs ih =>
      cases xs with
      | nil => simp at h; simp [h]
      | cons y ys =>
          rw [List.getLast?_cons_cons] at h
          exact List.mem_cons_of_mem _ (ih h)

theorem mem_takeLast_of_getLast? {l : List α} {a : α}
    (h : l.getLast? = some a) (k : Nat) (hk : 1 ≤ k) : a ∈ takeLast k l := by
  have hne : l ≠ [] := by intro hl; rw [hl] at h; simp at h
  have hlen : 1 ≤ l.length := by
    cases l with
    | nil => exact absurd rfl hne
    | cons x xs => simp
  have hm : l.length - k < l.length := by omega
  unfold takeLast
  exact mem_of_getLast?_eq ((getLast?_drop_eq hm).trans h)

theorem infix_joinSp {x : Str} {parts : List Str} (hx : x ∈ parts) :
    x <:+: joinSp parts := by
  induction parts with
  | nil => cases hx
  | cons a rest ih =>
      cases rest with
      | nil =>
          simp at hx
          subst hx
          exact List.infix_rfl
      | cons b r2 =>
          rcases List.mem_cons.1 hx with rfl | h2
          · exact ⟨[], ' ' :: joinSp (b :: r2), rfl⟩
          · exact (ih h2).trans ⟨a ++ [' '], [], by simp [joinSp]⟩

/-- A domain keyword inside the previous question's lowered text makes the
combined question-plus-context text match the domain vocabulary. -/
theorem domainMatch_combined_of_prev {q : Str} {history : List Exchange} {last : Exchange}
    (hlast : history.getLast? = some last) {kw : Str} (hkw : kw ∈ domainKeywords)
    (hin : kw <:+: lowerStr last.question) :
    domainMatch (combinedText q history) = true := by
  have hne : history ≠ [] := by intro h; rw [h] at hlast; simp at hlast
  have hmem : last ∈ takeLast 3 history := mem_takeLast_of_getLast? hlast 3 (by omega)
  have htopic : lowerStr last.question ∈ recentTopics (takeLast 3 history) := by
    rw [recentTopics, List.mem_flatMap]
    exact ⟨last, hmem, by simp⟩
  have hctx : lowerStr last.question <:+: contextOf history := by
    rw [contextOf, if_neg (by simpa using hne)]
    exact infix_joinSp htopic
  have hcomb : kw <:+: combinedText q history :=
    (hin.trans hctx).trans ⟨lowerStr q ++ [' '], [], by simp [combinedText]⟩
  rw [domainMatch, List.any_eq_true]
  exact ⟨kw, hkw, by simp [pyIn, hcomb]⟩

/-- C7 counterexample: the follow-up "and after?" right after the question
"my business plan" is routed to retrieval although the previous question
matches no domain-vocabulary keyword (only the carry-over keyword
"business") — the claim predicts direct here. -/
theorem c7_counterexample :
    classifyRoute (strOf "and after?")
        [⟨strOf "my business plan", strOf "ok", Route.direct, 0⟩] = Route.retrieval
    ∧ domainMatch (lowerStr (strOf "my business plan")) = false
    ∧ greetMatch (strOf "and after?") = false
    ∧ domainMatch (combinedText (strOf "and after?")
        [⟨strOf "my business plan", strOf "ok", Route.direct, 0⟩]) = false
    ∧ wordCount (strOf "and after?") = 2 := by
  refine ⟨?_, ?_, ?_, ?_, ?_⟩ <;> decide

/-- C7 amended: for a short question (≤3 tokens) with non-empty history,
when neither the greeting set (on the question) nor the domain vocabulary
(on the question combined with recent context) matches, the route is
decided by the restricted carry-over keyword set
{tax, deduction, business, legal, rule} applied to the previous question —
not by the full domain vocabulary; and a short follow-up right after a
turn whose question contained a domain-vocabulary keyword is routed to
retrieval through the combined-text check. -/
theorem c7_short_question_carry_over (q : Str) (history : List Exchange)
    (last : Exchange) (kw : Str) :
    (history.getLast? = some last → greetMatch q = false →
      domainMatch (combinedText q history) = false → wordCount q ≤ 3 →
      classifyRoute q history
        = if carryMatch last.question then Route.retrieval else Route.direct)
    ∧ (history.getLast? = some last → kw ∈ domainKeywords →
      kw <:+: lowerStr last.question → greetMatch q = false →
      classifyRoute q history = Route.retrieval) := by
  constructor
  · intro hlast hgr hdm hwc
    have hne : ¬ history.isEmpty = true := by
      intro h
      rw [List.isEmpty_iff] at h
      rw [h] at hlast
      simp at hlast
    rw [classifyRoute, hgr, hdm]
    simp only [Bool.false_eq_true, if_false]
    rw [if_pos ⟨hwc, hne⟩, hlast]
  · intro hlast hkw hin hgr
    have hdm := domainMatch_combined_of_prev (q := q) hlast hkw hin
    rw [classifyRoute, hgr, hdm]
    simp

/-- C7 witness: carry-over via "business" fires, and a follow-up after an
"explain ..." question is routed to retrieval through the combined text. -/
theorem c7_short_question_carry_over_witness :
    classifyRoute (strOf "and then")
        [⟨strOf "my business plan", strOf "ok", Route.direct, 0⟩] = Route.retrieval
    ∧ classifyRoute (strOf "and after?")
        [⟨strOf "explain depreciation", strOf "sure", Route.retrieval, 0⟩]
      = Route.retrieval := by
  constructor
  · have h := (c7_short_question_carry_over (strOf "and then")
        [⟨strOf "my business plan", strOf "ok", Route.direct, 0⟩]
        ⟨strOf "my business plan", strOf "ok", Route.direct, 0⟩ (strOf "tax")).1
        (by decide) (by decide) (by decide) (by decide)
    rw [h]; decide
  · exact (c7_short_question_carry_over (strOf "and after?")
        [⟨strOf "explain depreciation", strOf "sure", Route.retrieval, 0⟩]
        ⟨strOf "explain depreciation", strOf "sure", Route.retrieval, 0⟩
        (strOf "explain")).2
      (by decide) (by decide) (by decide) (by decide)

/-! Search ordering, scores and ranks (C4). -/

theorem sqDist_nonneg (qe : List Int) : ∀ v : List Int, 0 ≤ sqDist qe v := by
  unfold sqDist
  induction qe with
  | nil => intro v; simp
  | cons x xs ih =>
      intro v
      cases v with
      | nil => simp
      | cons y ys =>
          simp only [List.zipWith_cons_cons, List.sum_cons]
          exact add_nonneg (sq_nonneg _) (ih ys)

theorem simScore_pos {d : Int} (h : 0 ≤ d) : 0 < simScore d := by
  unfold simScore
  have hd : (0 : ℚ) ≤ (d : ℚ) := by exact_mod_cast h
  exact div_pos one_pos (by linarith)

theorem simScore_le_one {d : Int} (h : 0 ≤ d) : simScore d ≤ 1 := by
  unfold simScore
  have hd : (0 : ℚ) ≤ (d : ℚ) := by exact_mod_cast h
  rw [div_le_one (by linarith)]
  linarith

theorem simScore_lt {d e : Int} (hd : 0 ≤ d) (hlt : d < e) : simScore e < simScore d := by
  unfold simScore
  have h1 : (0 : ℚ) < 1 + (d : ℚ) := by
    have : (0 : ℚ) ≤ (d : ℚ) := by exact_mod_cast hd
    linarith
  have h2 : (1 : ℚ) + (d : ℚ) < 1 + (e : ℚ) := by
    have : (d : ℚ) < (e : ℚ) := by exact_mod_cast hlt
    linarith
  exact one_div_lt_one_div_of_lt h1 h2

theorem chromaQuery_length_le (coll : Collection) (qe : List Int) (k : Nat) :
    (chromaQuery coll qe k).length ≤ k := by
  unfold chromaQuery
  rw [List.length_take]
  exact min_le_left _ _

theorem chromaQuery_mem {coll : Collection} {qe : List Int} {k : Nat} :
    ∀ p ∈ chromaQuery coll qe k, p.2 ∈ coll := by
  intro p hp
  unfold chromaQuery at hp
  have h1 : p ∈ List.insertionSort (lexLe qe) coll.enum := List.mem_of_mem_take hp
  rw [List.mem_insertionSort] at h1
  have h2 := List.mem_map_of_mem Prod.snd h1
  rwa [List.enum_map_snd] at h2

theorem chromaQuery_pairwise (coll : Collection) (qe : List Int) (k : Nat) :
    (chromaQuery coll qe k).Pairwise (lexStrict qe) := by
  have hs : (List.insertionSort (lexLe qe) coll.enum).Pairwise (lexLe qe) :=
    List.sorted_insertionSort (lexLe qe) coll.enum
  have hperm : List.Perm (List.insertionSort (lexLe qe) coll.enum) coll.enum :=
    List.perm_insertionSort (lexLe qe) coll.enum
  have hnodup : ((List.insertionSort (lexLe qe) coll.enum).map Prod.fst).Nodup := by
    have h2 : List.Perm ((List.insertionSort (lexLe qe) coll.enum).map Prod.fst)
        (coll.enum.map Prod.fst) := hperm.map Prod.fst
    rw [List.enum_map_fst] at h2
    exact h2.nodup_iff.2 (List.nodup_range _)
  have hne : (List.insertionSort (lexLe qe) coll.enum).Pairwise (fun a b => a.1 ≠ b.1) := by
    rw [List.Nodup, List.pairwise_map] at hnodup
    exact hnodup
  have hstrict : (List.insertionSort (lexLe qe) coll.enum).Pairwise (lexStrict qe) := by
    refine (hs.and hne).imp ?_
    rintro a b ⟨hab, hne2⟩
    rcases hab with h | ⟨heq, hle⟩
    · exact Or.inl h
    · exact Or.inr ⟨heq, lt_of_le_of_ne hle hne2⟩
  exact List.Pairwise.sublist (List.take_sublist _ _) hstrict

theorem buildResults_mem (qe : List Int) (thr : ℚ) :
    ∀ (i : Nat) (l : List (Nat × VecEntry)) (r : SearchResultA),
      r ∈ buildResults qe thr i l →
      ∃ p ∈ l, r.insIdx = p.1 ∧ r.content = p.2.content ∧ r.metaOrg = p.2.metaOrg
        ∧ r.metaDoc = p.2.metaDoc ∧ r.score = simScore (sqDist qe p.2.emb)
        ∧ i + 1 ≤ r.rank := by
  intro i l
  induction l generalizing i with
  | nil => intro r hr; simp [buildResults] at hr
  | cons p rest ih =>
      intro r hr
      simp only [buildResults] at hr
      rcases List.mem_append.1 hr with h1 | h2
      · by_cases hc : thr ≤ simScore (sqDist qe p.2.emb)
        · rw [if_pos hc] at h1
          simp at h1
          subst h1
          exact ⟨p, List.mem_cons_self _ _, rfl, rfl, rfl, rfl, rfl, le_rfl⟩
        · rw [if_neg hc] at h1
          simp at h1
      · obtain ⟨p2, hp2, hidx, hcont, horg, hdoc, hscore, hrank⟩ := ih (i + 1) r h2
        exact ⟨p2, List.mem_cons_of_mem _ hp2, hidx, hcont, horg, hdoc, hscore, by omega⟩

theorem buildResults_length_le (qe : List Int) (thr : ℚ) :
    ∀ (i : Nat) (l : List (Nat × VecEntry)),
      (buildResults qe thr i l).length ≤ l.length := by
  intro i l
  induction l generalizing i with
  | nil => simp [buildResults]
  | cons p rest ih =>
      have h2 := ih (i + 1)
      simp only [buildResults, List.length_append, List.length_cons]
      by_cases hc : thr ≤ simScore (sqDist qe p.2.emb)
      · rw [if_pos hc]; simp; omega
      · rw [if_neg hc]; simp; omega

theorem buildResults_pairwise (qe : List Int) (thr : ℚ) :
    ∀ (i : Nat) (l : List (Nat × VecEntry)), l.Pairwise (lexStrict qe) →
      (buildResults qe thr i l).Pairwise
        (fun a b => (b.score < a.score ∨ (a.score = b.score ∧ a.insIdx < b.insIdx))
          ∧ a.rank < b.rank) := by
  intro i l
  induction l generalizing i with
  | nil => intro _; simp [buildResults]
  | cons p rest ih =>
      intro hpw
      rw [List.pairwise_cons] at hpw
      obtain ⟨hhead, hrest⟩ := hpw
      simp only [buildResults]
      refine List.pairwise_append.2 ⟨?_, ih (i + 1) hrest, ?_⟩
      · by_cases hc : thr ≤ simScore (sqDist qe p.2.emb)
        · rw [if_pos hc]; simp
        · rw [if_neg hc]; simp
      · intro a ha b hb
        by_cases hc : thr ≤ simScore (sqDist qe p.2.emb)
        · rw [if_pos hc] at ha
          simp at ha
          subst ha
          obtain ⟨p2, hp2, hidx, _, _, _, hscore, hrank⟩ :=
            buildResults_mem qe thr (i + 1) rest b hb
          have hlex := hhead p2 hp2
          refine ⟨?_, by simp; omega⟩
          rcases hlex with hlt | ⟨heq, hltidx⟩
          · left
            rw [hscore]
            exact simScore_lt (sqDist_nonneg qe p.2.emb) hlt
          · right
            constructor
            · rw [hscore, heq]
            · rw [hidx]
              simpa using hltidx
        · rw [if_neg hc] at ha
          simp at ha

/-- Case analysis on `search`: either an internal failure yields `[]`, or
the results are built from the org collection's k nearest neighbours. -/
theorem searchAnnotated_cases (md5hex : Str → Str) (embedQ : Str → Option (List Int))
    (fault : Bool) (s : Store) (org q : Str) (k : Nat) (thr : ℚ) :
    searchAnnotated md5hex embedQ fault s org q k thr = []
    ∨ ∃ qe, embedQ q = some qe
      ∧ searchAnnotated md5hex embedQ fault s org q k thr
        = buildResults qe thr 0
            (chromaQuery ((lookupKey s (getCollectionName md5hex org)).getD []) qe k) := by
  unfold searchAnnotated searchCore
  cases hqe : embedQ q with
  | none => exact Or.inl rfl
  | some qe =>
      cases fault
      · exact Or.inr ⟨qe, rfl, rfl⟩
      · exact Or.inl rfl

/-- C4: `search` returns at most `k` results; every result has a
similarity score in `[0, 1]` (in fact strictly positive) and an integer
rank at least 1; and the results are ordered by strictly decreasing score
with ties broken by ascending insertion position of the underlying chunk
(so the earlier-added chunk ranks first), ranks strictly increasing. -/
theorem c4_search_ranked (md5hex : Str → Str) (embedQ : Str → Option (List Int))
    (fault : Bool) (s : Store) (org q : Str) (k : Nat) (thr : ℚ) :
    search md5hex embedQ fault s org q k thr
        = (searchAnnotated md5hex embedQ fault s org q k thr).map dropIdx
    ∧ (search md5hex embedQ fault s org q k thr).length ≤ k
    ∧ (∀ r ∈ search md5hex embedQ fault s org q k thr,
        0 ≤ r.score ∧ r.score ≤ 1 ∧ 1 ≤ r.rank)
    ∧ (searchAnnotated md5hex embedQ fault s org q k thr).Pairwise
        (fun a b => (b.score < a.score ∨ (a.score = b.score ∧ a.insIdx < b.insIdx))
          ∧ a.rank < b.rank) := by
  refine ⟨rfl, ?_, ?_, ?_⟩
  · rcases searchAnnotated_cases md5hex embedQ fault s org q k thr with heq | ⟨qe, hqe, heq⟩
    · simp [search, heq]
    · rw [search, heq, List.length_map]
      exact le_trans (buildResults_length_le qe thr 0 _) (chromaQuery_length_le _ _ _)
  · intro r hr
    rcases searchAnnotated_cases md5hex embedQ fault s org q k thr with heq | ⟨qe, hqe, heq⟩
    · rw [search, heq] at hr; simp at hr
    · rw [search, heq] at hr
      obtain ⟨ra, hra, rfl⟩ := List.mem_map.1 hr
      obtain ⟨p, hp, _, _, _, _, hscore, hrank⟩ := buildResults_mem qe thr 0 _ ra hra
      refine ⟨?_, ?_, ?_⟩
      · show (0 : ℚ) ≤ ra.score
        rw [hscore]
        exact le_of_lt (simScore_pos (sqDist_nonneg qe p.2.emb))
      · show ra.score ≤ 1
        rw [hscore]
        exact simScore_le_one (sqDist_nonneg qe p.2.emb)
      · show 1 ≤ ra.rank
        omega
  · rcases searchAnnotated_cases md5hex embedQ fault s org q k thr with heq | ⟨qe, hqe, heq⟩
    · rw [heq]; simp
    · rw [heq]
      exact buildResults_pairwise qe thr 0 _ (chromaQuery_pairwise _ qe k)

/-! Tenant isolation (C3). -/

theorem mkEntries_metaOrg {org docId : Str} {docs : List VDoc} {embs : List (List Int)}
    {e : VecEntry} (h : e ∈ mkEntries org docId docs embs) : e.metaOrg = org := by
  unfold mkEntries at h
  obtain ⟨p, _, rfl⟩ := List.mem_map.1 h
  rfl

theorem getD_lookupKey_ensureColl (s : Store) (n : Str) :
    (lookupKey (ensureColl s n) n).getD [] = (lookupKey s n).getD [] := by
  rw [lookupKey_ensureColl_self]
  rfl

theorem storeInv_ensureColl {md5hex : Str → Str} {orgs : List Str} {s : Store}
    (h : StoreInv md5hex orgs s) (n : Str) : StoreInv md5hex orgs (ensureColl s n) := by
  intro p hp
  rcases mem_ensureColl hp with h2 | h2
  · exact h p h2
  · subst h2; intro e he; simp at he

theorem storeInv_setKey {md5hex : Str → Str} {orgs : List Str} {s : Store}
    (h : StoreInv md5hex orgs s) (n : Str) (v : Collection)
    (hv : ∀ e ∈ v, e.metaOrg ∈ orgs ∧ getCollectionName md5hex e.metaOrg = n) :
    StoreInv md5hex orgs (setKey s n v) := by
  intro p hp
  rcases mem_setKey hp with rfl | h2
  · intro e he; exact hv e he
  · exact h p h2

theorem storeInv_coll_mem {md5hex : Str → Str} {orgs : List Str} {s : Store}
    (h : StoreInv md5hex orgs s) (n : Str) {e : VecEntry}
    (he : e ∈ (lookupKey s n).getD []) :
    e.metaOrg ∈ orgs ∧ getCollectionName md5hex e.metaOrg = n := by
  cases hl : lookupKey s n with
  | none => rw [hl] at he; simp at he
  | some c0 =>
      rw [hl] at he
      exact h (n, c0) (lookupKey_mem hl) e he

theorem storeInv_applyOp {md5hex : Str → Str} {embedder : Str → Option (List Int)}
    {orgs : List Str} {s : Store} (h : StoreInv md5hex orgs s)
    (o : VOp) (ho : opOrg o ∈ orgs) :
    StoreInv md5hex orgs (applyOp md5hex embedder s o) := by
  cases o with
  | add org docs docId =>
      show StoreInv md5hex orgs (addDocuments md5hex embedder s org docs docId).2
      unfold addDocuments addDocumentsCore
      cases hemb : embedDocuments embedder (docs.map VDoc.pageContent) with
      | none => exact storeInv_ensureColl h _
      | some embs =>
          refine storeInv_setKey (storeInv_ensureColl h _) _ _ ?_
          intro e he
          rcases List.mem_append.1 he with h2 | h2
          · rw [getD_lookupKey_ensureColl] at h2
            exact storeInv_coll_mem h _ h2
          · rw [mkEntries_metaOrg h2]
            exact ⟨ho, rfl⟩
  | del org docId =>
      show StoreInv md5hex orgs (deleteDocument md5hex s org docId).2
      simp only [deleteDocument]
      split
      · exact storeInv_ensureColl h _
      · refine storeInv_setKey (storeInv_ensureColl h _) _ _ ?_
        intro e he
        have h2 := List.mem_of_mem_filter he
        rw [getD_lookupKey_ensureColl] at h2
        exact storeInv_coll_mem h _ h2

theorem storeInv_runOps {md5hex : Str → Str} {embedder : Str → Option (List Int)}
    {orgs : List Str} :
    ∀ (ops : List VOp) (s : Store), StoreInv md5hex orgs s →
      (∀ o ∈ ops, opOrg o ∈ orgs) →
      StoreInv md5hex orgs (runOps md5hex embedder s ops) := by
  intro ops
  induction ops with
  | nil => intro s h _; exact h
  | cons o rest ih =>
      intro s h hops
      exact ih _ (storeInv_applyOp h o (hops o (List.mem_cons_self _ _)))
        (fun o2 ho2 => hops o2 (List.mem_cons_of_mem _ ho2))

/-- C3: starting from an empty store and running any sequence of add and
delete operations (with distinct organisations mapped to distinct
collection names), a search against organisation A's namespace returns
only chunks stamped with A's org id, and neither a search nor a delete
against A's namespace touches B's collection. -/
theorem c3_tenant_isolation (md5hex : Str → Str) (embedder embedQ : Str → Option (List Int))
    (fault : Bool) (ops : List VOp) (A B q docId : Str) (k : Nat) (thr : ℚ)
    (hAB : A ≠ B)
    (hinj : ∀ o ∈ opsOrgs ops,
      getCollectionName md5hex o = getCollectionName md5hex A → o = A)
    (hname : getCollectionName md5hex A ≠ getCollectionName md5hex B) :
    (∀ r ∈ search md5hex embedQ fault (runOps md5hex embedder [] ops) A q k thr,
      r.metaOrg = A)
    ∧ lookupKey (searchStoreEffect md5hex (runOps md5hex embedder [] ops) A)
        (getCollectionName md5hex B)
      = lookupKey (runOps md5hex embedder [] ops) (getCollectionName md5hex B)
    ∧ lookupKey (deleteDocument md5hex (runOps md5hex embedder [] ops) A docId).2
        (getCollectionName md5hex B)
      = lookupKey (runOps md5hex embedder [] ops) (getCollectionName md5hex B) := by
  have hinv : StoreInv md5hex (opsOrgs ops) (runOps md5hex embedder [] ops) :=
    storeInv_runOps ops [] (fun p hp => by simp at hp)
      (fun o ho => List.mem_map_of_mem opOrg ho)
  refine ⟨?_, ?_, ?_⟩
  · intro r hr
    rcases searchAnnotated_cases md5hex embedQ fault (runOps md5hex embedder [] ops)
        A q k thr with heq | ⟨qe, hqe, heq⟩
    · rw [search, heq] at hr; simp at hr
    · rw [search, heq] at hr
      obtain ⟨ra, hra, rfl⟩ := List.mem_map.1 hr
      obtain ⟨p, hp, _, _, horg, _, _, _⟩ := buildResults_mem qe thr 0 _ ra hra
      have hpin : p.2 ∈ (lookupKey (runOps md5hex embedder [] ops)
          (getCollectionName md5hex A)).getD [] := chromaQuery_mem p hp
      have hprops := storeInv_coll_mem hinv _ hpin
      have hmA : p.2.metaOrg = A := hinj _ hprops.1 hprops.2
      show ra.metaOrg = A
      rw [horg]
      exact hmA
  · exact lookupKey_ensureColl_ne _ _ _ (Ne.symm hname)
  · simp only [deleteDocument]
    split
    · exact lookupKey_ensureColl_ne _ _ _ (Ne.symm hname)
    · rw [lookupKey_setKey_ne _ _ _ _ (Ne.symm hname)]
      exact lookupKey_ensureColl_ne _ _ _ (Ne.symm hname)

/-- C3 witness: with chunks written under "alice" and "bobby", deleting
against alice's namespace leaves bobby's collection untouched. -/
theorem c3_tenant_isolation_witness :
    lookupKey (deleteDocument (fun x => x)
        (runOps (fun x => x) (fun _ => some [1]) []
          [VOp.add (strOf "alice") [⟨strOf "hi"⟩] (strOf "d1"),
           VOp.add (strOf "bobby") [⟨strOf "yo"⟩] (strOf "d2")])
        (strOf "alice") (strOf "d9")).2
      (getCollectionName (fun x => x) (strOf "bobby"))
    = lookupKey (runOps (fun x => x) (fun _ => some [1]) []
          [VOp.add (strOf "alice") [⟨strOf "hi"⟩] (strOf "d1"),
           VOp.add (strOf "bobby") [⟨strOf "yo"⟩] (strOf "d2")])
      (getCollectionName (fun x => x) (strOf "bobby")) :=
  (c3_tenant_isolation (fun x => x) (fun _ => some [1]) (fun _ => some [0]) false
      [VOp.add (strOf "alice") [⟨strOf "hi"⟩] (strOf "d1"),
       VOp.add (strOf "bobby") [⟨strOf "yo"⟩] (strOf "d2")]
      (strOf "alice") (strOf "bobby") (strOf "q") (strOf "d9") 5 0
      (by decide) (by decide) (by decide)).2.2

end AgentInsights
